import Mathlib

/-!
Verification of the relevance-scoring and intent-classification search engine
implemented by the `AISearchEngine` class in `src/ai_search_engine.py`.

The Python code is shallowly embedded as executable Lean definitions:

* Python strings are `String` (a structure over `List Char`); the string
  operations used by the code (`in` substring test, `str.split`,
  `str.replace`, `str.lower`, `str.strip`) are reimplemented below with
  Python semantics, restricted to ASCII text (all string constants of the
  program are ASCII; the regex classes `\w` and `\s` are modelled by their
  ASCII parts, which is exact on every input the claims mention).
* Python floats are modelled as exact rationals `ℚ`.  Every score the code
  builds is a sum of the constants 10, 5, 4, 3, 2, 0.5, 1.2, 0.9 and a
  rational similarity ratio, and every comparison a claim makes has a wide
  margin, so exact rational arithmetic and IEEE double arithmetic agree on
  all properties stated here.
* A knowledge-base entry value is a Python dict holding optional fields;
  it is embedded as a record of `Option`-fields (`EntryData`).  Field values
  that may be non-strings at runtime are embedded as `Val`, where `Val.other`
  stands for any non-string value: the only fact the code can observe about
  such a value inside `_calculate_relevance` is that using it as the left
  operand of `in` (or calling `.lower()` on it) raises, which the embedding
  models with `Except Unit`, `.error ()` standing for a raised exception.
* The Python dict `knowledge_base` is embedded as an association list in
  iteration (= insertion) order.
* `difflib.SequenceMatcher(None, a, b).ratio()` is embedded by a faithful
  translation of the CPython algorithm (b2j table with the autojunk rule,
  the longest-match dynamic program with its tie-breaking, the extension
  loops, and the recursive collection of matching blocks).
-/

/- Batteries marks the rational operations irreducible, which blocks
kernel evaluation of concrete scores; restore default reducibility so that
`decide` can evaluate the engine on concrete inputs. -/
set_option allowUnsafeReducibility true
attribute [semireducible] Rat.add Rat.mul Rat.div Rat.sub Rat.neg Rat.inv

/-! ## Python string primitives -/

/-- The ASCII whitespace characters recognised by `str.strip`, `str.split`
and the regex class `\s`. -/
def isPySpace (c : Char) : Bool :=
  c = ' ' || c = '\t' || c = '\n' || c = '\r' || c = '\x0b' || c = '\x0c'

/-- The regex class `\w` (word character), ASCII part: letters, digits and
underscore. -/
def isWordChar (c : Char) : Bool :=
  c.isAlpha || c.isDigit || c = '_'

/-- Test whether `needle` is an initial segment of `hay`. -/
def lsw : List Char → List Char → Bool
  | _, [] => true
  | [], _ :: _ => false
  | h :: hs, n :: ns => h == n && lsw hs ns

/-- Test whether `needle` occurs contiguously inside `hay`. -/
def containsSub (needle : List Char) : List Char → Bool
  | [] => lsw [] needle
  | c :: t => lsw (c :: t) needle || containsSub needle t

/-- The Python expression `needle in hay` on strings: substring containment
(true for the empty needle). -/
def pyIn (needle hay : String) : Bool :=
  containsSub needle.data hay.data

/-- Helper for `pySplit`: walk the characters accumulating the current word
reversed in `cur`; a whitespace character or the end of input emits the word
if it is non-empty. -/
def pySplitAux : List Char → List Char → List (List Char)
  | [], cur => if cur.isEmpty then [] else [cur.reverse]
  | c :: rest, cur =>
    if isPySpace c then
      if cur.isEmpty then pySplitAux rest [] else cur.reverse :: pySplitAux rest []
    else
      pySplitAux rest (c :: cur)

/-- The Python expression `s.split()`: split on whitespace runs, dropping
empty words. -/
def pySplit (s : String) : List String :=
  (pySplitAux s.data []).map String.mk

/-- The Python expression `s.lower()` (ASCII case mapping). -/
def pyLower (s : String) : String :=
  String.mk (s.data.map Char.toLower)

/-- The Python expression `s.strip()`: drop leading and trailing whitespace. -/
def pyStrip (s : String) : String :=
  String.mk (((s.data.dropWhile isPySpace).reverse.dropWhile isPySpace).reverse)

/-- Replacement of every non-overlapping occurrence of `w` (scanned left to
right) by `syn`, as in the Python expression `s.replace(w, syn)`.  The code
only ever calls this with a non-empty `w` (a word produced by `split`);
for `w = []` the embedding returns the input unchanged.  The `fuel`
argument only makes the recursion structural; it is called with
`fuel = length of the scanned list`, which is never exhausted. -/
def pyReplaceAux (w syn : List Char) : Nat → List Char → List Char
  | _, [] => []
  | 0, l => l
  | fuel + 1, c :: rest =>
    match w with
    | [] => c :: rest
    | _ :: ws =>
      if lsw (c :: rest) w then syn ++ pyReplaceAux w syn fuel (rest.drop ws.length)
      else c :: pyReplaceAux w syn fuel rest

/-- The Python expression `s.replace(w, syn)` on strings. -/
def pyReplace (s w syn : String) : String :=
  String.mk (pyReplaceAux w.data syn.data s.data.length s.data)

/-! ## The Text Normalizer (`_preprocess_query`)

The Python code lowercases and strips, collapses whitespace runs to single
spaces (`re.sub(r"\s+", " ", q)`), and finally deletes every character that
is not a word character, whitespace, hyphen or question mark
(`re.sub(r"[^\w\s\-\?]", "", q)`), in that order. -/

/-- Collapse each maximal run of whitespace to a single space, as
`re.sub(r"\s+", " ", q)` does.  The flag records whether the previous
character belonged to a whitespace run. -/
def collapseWs : List Char → Bool → List Char
  | [], _ => []
  | c :: rest, prevWs =>
    if isPySpace c then
      if prevWs then collapseWs rest true else ' ' :: collapseWs rest true
    else
      c :: collapseWs rest false

/-- A character surviving `re.sub(r"[^\w\s\-\?]", "", q)`. -/
def keepChar (c : Char) : Bool :=
  isWordChar c || isPySpace c || c = '-' || c = '?'

/-- The method `_preprocess_query`: lowercase and strip, collapse whitespace
runs, then delete characters outside `[\w\s\-\?]`. -/
def preprocessQuery (query : String) : String :=
  let q1 := pyStrip (pyLower query)
  let q2 := String.mk (collapseWs q1.data false)
  String.mk (q2.data.filter keepChar)

/-! ## The fuzzy-match term: `difflib.SequenceMatcher(None, a, b).ratio()`

This is a faithful translation of the CPython `difflib` implementation with
`isjunk = None` (so the junk set is empty; the two junk-only extension loops
of `find_longest_match` can never execute and are omitted) and the default
`autojunk = True` (elements of `b` occurring more than `len(b)//100 + 1`
times are dropped from the index when `len(b) >= 200`).  `ratio()` only uses
the total size of the matching blocks, so the final sort-and-merge of
`get_matching_blocks` (which preserves that total) is not modelled. -/

/-- The list of positions of `c` in `b`, ascending: one entry of the `b2j`
table before the autojunk rule is applied. -/
def b2jRaw (b : List Char) (c : Char) : List Nat :=
  (List.range b.length).filter (fun j => b.get? j = some c)

/-- The autojunk rule of `SequenceMatcher.__chain_b`: for `len(b) >= 200`,
characters occurring more than `len(b) // 100 + 1` times are popular. -/
def isPopular (b : List Char) (c : Char) : Bool :=
  200 ≤ b.length && b.length / 100 + 1 < (b2jRaw b c).length

/-- The `b2j` table after popular elements are dropped. -/
def b2j (b : List Char) (c : Char) : List Nat :=
  if isPopular b c then [] else b2jRaw b c

/-- Lookup in the association list representing the Python dict `j2len`
(`j2len.get(j, 0)`). -/
def alget (l : List (Nat × Nat)) (j : Nat) : Nat :=
  match l with
  | [] => 0
  | (a, b) :: t => if a = j then b else alget t j

/-- The inner loop of `find_longest_match` over `b2j[a[i]]`: `continue` on
`j < blo`, `break` on `j >= bhi`, extend the run ending at `(i, j)` and
update the best triple `(besti, bestj, bestsize)` on a strict improvement.
In Python `j2len.get(j - 1, 0)` reads `-1` as absent for `j = 0`. -/
def flmInner (i blo bhi : Nat) (j2len : List (Nat × Nat)) :
    List Nat → List (Nat × Nat) → Nat × Nat × Nat → List (Nat × Nat) × (Nat × Nat × Nat)
  | [], newj2len, best => (newj2len, best)
  | j :: js, newj2len, best =>
    if j < blo then flmInner i blo bhi j2len js newj2len best
    else if bhi ≤ j then (newj2len, best)
    else
      let k := (if j = 0 then 0 else alget j2len (j - 1)) + 1
      let best' := if best.2.2 < k then (i + 1 - k, j + 1 - k, k) else best
      flmInner i blo bhi j2len js ((j, k) :: newj2len) best'

/-- The outer loop of `find_longest_match` over `i in range(alo, ahi)`,
threading the `j2len` table and the best triple. -/
def flmOuter (a : List Char) (bj : Char → List Nat) (blo bhi : Nat) :
    List Nat → List (Nat × Nat) → Nat × Nat × Nat → Nat × Nat × Nat
  | [], _, best => best
  | i :: is, j2len, best =>
    let r := flmInner i blo bhi j2len (bj (a.getD i ' ')) [] best
    flmOuter a bj blo bhi is r.1 r.2

/-- Character comparison `a[i] == b[j]` guarded by both indices being in
range (as they are at every use in the algorithm). -/
def chEq (a : List Char) (i : Nat) (b : List Char) (j : Nat) : Bool :=
  match a.get? i, b.get? j with
  | some x, some y => x == y
  | _, _ => false

/-- The first extension loop of `find_longest_match`: grow the best block
to the left while `besti > alo`, `bestj > blo` and `a[besti-1] == b[bestj-1]`
(the junk test is vacuous: the junk set is empty).  `fuel` bounds the
iteration count; it is called with `fuel = besti`, which suffices since
`besti` decreases by one per step. -/
def extendLeft (a b : List Char) (alo blo : Nat) : Nat → Nat × Nat × Nat → Nat × Nat × Nat
  | 0, best => best
  | fuel + 1, (bi, bj, bs) =>
    if alo < bi && blo < bj && chEq a (bi - 1) b (bj - 1) then
      extendLeft a b alo blo fuel (bi - 1, bj - 1, bs + 1)
    else (bi, bj, bs)

/-- The second extension loop of `find_longest_match`: grow the best block
to the right while `besti+bestsize < ahi`, `bestj+bestsize < bhi` and
`a[besti+bestsize] == b[bestj+bestsize]`.  Called with `fuel = ahi`. -/
def extendRight (a b : List Char) (ahi bhi : Nat) : Nat → Nat × Nat × Nat → Nat × Nat × Nat
  | 0, best => best
  | fuel + 1, (bi, bj, bs) =>
    if bi + bs < ahi && bj + bs < bhi && chEq a (bi + bs) b (bj + bs) then
      extendRight a b ahi bhi fuel (bi, bj, bs + 1)
    else (bi, bj, bs)

/-- The method `find_longest_match(alo, ahi, blo, bhi)` of
`SequenceMatcher(None, a, b)`: the dynamic program followed by the two
non-junk extension loops (the junk-conditioned loops never run). -/
def findLongestMatch (a b : List Char) (alo ahi blo bhi : Nat) : Nat × Nat × Nat :=
  let best := flmOuter a (b2j b) blo bhi (List.range' alo (ahi - alo)) [] (alo, blo, 0)
  let best := extendLeft a b alo blo best.1 best
  extendRight a b ahi bhi ahi best

/-- The total size of the matching blocks collected by
`get_matching_blocks`: find the longest match of the window, and if it is
non-empty recurse on the windows to its left and right (with the same
non-degeneracy guards as the Python queue loop).  `fuel` only bounds the
recursion depth: each recursive window is strictly smaller, so the initial
`fuel = len(a) + len(b) + 1` is never exhausted. -/
def matchingTotal (a b : List Char) : Nat → Nat → Nat → Nat → Nat → Nat
  | 0, _, _, _, _ => 0
  | fuel + 1, alo, ahi, blo, bhi =>
    let m := findLongestMatch a b alo ahi blo bhi
    if m.2.2 = 0 then 0
    else
      m.2.2 +
        (if alo < m.1 ∧ blo < m.2.1 then matchingTotal a b fuel alo m.1 blo m.2.1 else 0) +
        (if m.1 + m.2.2 < ahi ∧ m.2.1 + m.2.2 < bhi then
          matchingTotal a b fuel (m.1 + m.2.2) ahi (m.2.1 + m.2.2) bhi else 0)

/-- The method `ratio()` of `SequenceMatcher(None, a, b)`:
`2 * M / (len(a) + len(b))`, or `1.0` when both are empty. -/
def smRatio (a b : List Char) : ℚ :=
  let m := matchingTotal a b (a.length + b.length + 1) 0 a.length 0 b.length
  if a.length + b.length = 0 then 1
  else 2 * (m : ℚ) / ((a.length : ℚ) + (b.length : ℚ))

/-! ## Data model -/

deriving instance DecidableEq for Except

/-- A Python value stored in a knowledge-base entry field.  The code only
ever distinguishes strings (which support `in` and `.lower()`) from
everything else; `Val.other` stands for any non-string value, on which
those operations raise (`TypeError` or `AttributeError`). -/
inductive Val where
  | str : String → Val
  | other : Val
deriving DecidableEq

/-- One knowledge-base entry value: a Python dict with the optional fields
the engine reads.  A missing dict key is `none`.  The remaining fields the
repository stores (severity, dosage, organic or chemical solutions, timing,
benefits, eligibility) are never read by the search engine and are not
modelled. -/
structure EntryData where
  crops : Option (List Val) := none
  category : Option Val := none
  symptoms : Option (List Val) := none
  solution : Option Val := none
  prevention : Option (List Val) := none
deriving DecidableEq

/-- One element of the list returned by `_search_knowledge_base`. -/
structure SearchResult where
  key : String
  data : EntryData
  score : ℚ
  matchedQuery : String
deriving DecidableEq

/-- The dict returned by `_extract_intent` (the `subject` key is set to
`None` and never updated). -/
structure Intent where
  type : String
  action : Option String
  subject : Option String
  confidence : ℚ
deriving DecidableEq

/-- One element of `search_history`.  The wall-clock `timestamp` string the
code stores is an effect of the environment and is not modelled; no claim
mentions it. -/
structure HistEntry where
  query : String
  resultsCount : Nat
deriving DecidableEq

/-- The mutable state of an `AISearchEngine` instance that the search path
touches: the bounded history log and the `total_searches` counter
(`context_memory`, `search_index`, and the never-updated `avg_results` and
`popular_queries` statistics are dead state for every claim). -/
structure EngineState where
  searchHistory : List HistEntry := []
  totalSearches : Nat := 0
deriving DecidableEq

/-- The optional `context` argument of `search` (`_apply_context` reads the
keys `location` and `previous_queries` and returns the results unchanged). -/
structure Context where
  location : Option String := none
  previousQueries : Option (List String) := none
deriving DecidableEq

/-- The dict returned by `search`.  The wall-clock `search_time` field is
not modelled; no claim mentions it. -/
structure SearchOutput where
  query : String
  processedQuery : String
  intent : Intent
  results : List SearchResult
  totalResults : Nat
  suggestions : List String
deriving DecidableEq

/-- A knowledge base: a Python dict embedded as its association list in
iteration (= insertion) order. -/
abbrev KnowledgeBase := List (String × EntryData)

/-! ## Static configuration: `_load_query_patterns` and `_load_synonyms`

Every regular expression in `_load_query_patterns` has the single shape
`\b(w|...|w)\b.*\b(w|...|w)\b` over literal lowercase words, so a pattern is
embedded as the pair of its two alternation groups, and `re.search` with
`re.IGNORECASE` is embedded semantically: the pattern matches iff some word
of the first group occurs at word boundaries, some word of the second group
occurs at word boundaries at or after the end of the first, and the gap
between them contains no newline (`.` does not match `\n`). -/

/-- One intent regex `\b(g1)\b.*\b(g2)\b`, as its two alternation groups. -/
abbrev Pat := List String × List String

/-- The dict returned by `_load_query_patterns`, in its iteration order. -/
def queryPatterns : List (String × List Pat) :=
  [("pest_control",
     [(["control", "kill", "remove", "eliminate", "manage"],
       ["pest", "insect", "bug", "aphid", "whitefly"]),
      (["aphid", "whitefly", "thrips", "mite", "borer", "caterpillar"],
       ["control", "treatment", "solution"])]),
   ("disease_management",
     [(["disease", "infection", "fungus", "virus", "bacterial"],
       ["treatment", "cure", "control"]),
      (["blight", "spot", "rot", "wilt", "mildew"],
       ["manage", "treat", "prevent"])]),
   ("fertilizer",
     [(["fertilizer", "nutrient", "npk", "urea", "dap"],
       ["apply", "use", "recommend"]),
      (["nitrogen", "phosphorus", "potassium"],
       ["deficiency", "requirement"])]),
   ("crop_management",
     [(["grow", "cultivate", "plant"],
       ["crop", "vegetable", "grain"]),
      (["irrigation", "watering", "drainage"],
       ["method", "system", "schedule"])]),
   ("government_schemes",
     [(["scheme", "subsidy", "loan", "insurance", "policy"],
       ["farmer", "agriculture"]),
      (["pm kisan", "pradhan mantri", "government"],
       ["benefit", "apply", "register"])])]

/-- The dict returned by `_load_synonyms`, in its iteration order. -/
def synonyms : List (String × List String) :=
  [("pest", ["insect", "bug", "parasite", "infestation"]),
   ("disease", ["infection", "sickness", "ailment", "disorder"]),
   ("fertilizer", ["nutrient", "manure", "compost", "feed"]),
   ("crop", ["plant", "vegetation", "produce", "harvest"]),
   ("control", ["manage", "eliminate", "remove", "treat"]),
   ("organic", ["natural", "bio", "eco-friendly", "chemical-free"]),
   ("yield", ["production", "output", "harvest", "productivity"])]

/-! ## The Intent Classifier (`_extract_intent`) -/

/-- Whether position `p` of `q` holds a word character (`false` outside the
string), used for the word-boundary test `\b`. -/
def inWord (q : List Char) (p : Nat) : Bool :=
  match q.get? p with
  | some c => isWordChar c
  | none => false

/-- The regex word boundary `\b` at position `p` of `q`: the wordness of the
characters on the two sides of `p` differs (positions outside the string
count as non-word). -/
def wordBoundaryAt (q : List Char) (p : Nat) : Bool :=
  (if p = 0 then false else inWord q (p - 1)) != inWord q p

/-- Case-insensitive literal occurrence of `w` at position `i` of `q`
(the pattern words are lowercase; `re.IGNORECASE` lowercases the text). -/
def occursAt (q w : List Char) (i : Nat) : Bool :=
  (List.range w.length).all fun k =>
    match q.get? (i + k) with
    | some c => c.toLower == w.getD k ' '
    | none => false

/-- Truth of `re.search(r"\b(g1)\b.*\b(g2)\b", q, re.IGNORECASE)`: a word
of `g1` occurs at word boundaries at some `i`, a word of `g2` occurs at word
boundaries at some `j` at or after the end of the first occurrence, and the
gap between them contains no newline. -/
def patMatch (q : List Char) (p : Pat) : Bool :=
  (List.range (q.length + 1)).any fun i =>
    p.1.any fun w1 =>
      occursAt q w1.data i && wordBoundaryAt q i && wordBoundaryAt q (i + w1.data.length) &&
      ((List.range (q.length + 1)).any fun j =>
        decide (i + w1.data.length ≤ j) &&
        ((q.drop (i + w1.data.length)).take (j - (i + w1.data.length))).all (· != '\n') &&
        p.2.any fun w2 =>
          occursAt q w2.data j && wordBoundaryAt q j && wordBoundaryAt q (j + w2.data.length))

/-- The fixed `action_verbs` list of `_extract_intent`. -/
def actionVerbs : List String :=
  ["control", "treat", "prevent", "apply", "use", "grow", "plant", "harvest"]

/-- The method `_extract_intent`: the first pattern group with a matching
regex fixes the type and the 0.9 confidence; independently the first action
verb contained in the query (as a plain substring) fixes the action. -/
def extractIntent (query : String) : Intent :=
  let matched := queryPatterns.find? fun g => g.2.any fun p => patMatch query.data p
  let action := actionVerbs.find? fun v => pyIn v query
  match matched with
  | some g => { type := g.1, action := action, subject := none, confidence := 9 / 10 }
  | none => { type := "general", action := action, subject := none, confidence := 0 }

/-! ## The Synonym Expander (`_expand_query`) -/

/-- The method `_expand_query`: the original query first, then, for each
word of the query present in the synonym table and each of its synonyms in
order, the query with every occurrence of that word replaced. -/
def expandQuery (query : String) : List String :=
  (pySplit query).foldl
    (fun expanded word =>
      match synonyms.find? fun s => s.1 = word with
      | some s => expanded ++ s.2.map fun syn => pyReplace query word syn
      | none => expanded)
    [query]

/-! ## The Knowledge Matcher (`_calculate_relevance`, `_search_knowledge_base`)

A raised exception is modelled as `Except.error ()`; the contributions are
evaluated in the order of the Python method, so the first malformed field
reached determines the error, exactly as the first raised exception does. -/

/-- List of first occurrences, keeping order: the distinct elements of `l`.
Used to embed Python set cardinalities where the claims only depend on the
set contents, not on the unspecified iteration order of a Python set. -/
def dedupKeepFirst : List String → List String
  | [] => []
  | x :: xs => x :: (dedupKeepFirst xs).filter (· ≠ x)

/-- The crop loop of `_calculate_relevance`: `+4.0` for each crop that is a
substring of the query; a non-string crop raises (`crop in query` is a
`TypeError` for a non-string left operand). -/
def cropsScore (query : String) : List Val → Except Unit ℚ
  | [] => .ok 0
  | .str c :: rest => (cropsScore query rest).map fun r => (if pyIn c query then 4 else 0) + r
  | .other :: _ => .error ()

/-- The symptom loop of `_calculate_relevance`: `+2.0` for each symptom that
is a substring of the query; a non-string symptom raises. -/
def symptomsScore (query : String) : List Val → Except Unit ℚ
  | [] => .ok 0
  | .str s :: rest => (symptomsScore query rest).map fun r => (if pyIn s query then 2 else 0) + r
  | .other :: _ => .error ()

/-- The key-based part of `_calculate_relevance`: `+10` for the key as a
substring of the query, `+5` if some word of the key is a substring of the
query, plus three times the `SequenceMatcher` ratio of query and key. -/
def keyScore (query key : String) : ℚ :=
  (if pyIn key query then 10 else 0) +
  (if (pySplit key).any (fun w => pyIn w query) then 5 else 0) +
  smRatio query.data key.data * 3

/-- The crops field contribution (skipped when the key is absent). -/
def cropContrib (query : String) (data : EntryData) : Except Unit ℚ :=
  match data.crops with
  | none => .ok 0
  | some cs => cropsScore query cs

/-- The category field contribution: `+3.0` when the category is a substring
of the query; a non-string category raises. -/
def categoryContrib (query : String) (data : EntryData) : Except Unit ℚ :=
  match data.category with
  | none => .ok 0
  | some (.str c) => .ok (if pyIn c query then 3 else 0)
  | some .other => .error ()

/-- The symptoms field contribution (skipped when the key is absent). -/
def symptomContrib (query : String) (data : EntryData) : Except Unit ℚ :=
  match data.symptoms with
  | none => .ok 0
  | some ss => symptomsScore query ss

/-- The solution field contribution: `0.5` per distinct word shared by the
lowercased solution text and the query; a non-string solution raises
(`.lower()` is an `AttributeError`). -/
def solutionContrib (query : String) (data : EntryData) : Except Unit ℚ :=
  match data.solution with
  | none => .ok 0
  | some (.str s) =>
    .ok ((((dedupKeepFirst (pySplit (pyLower s))).filter
        fun w => (pySplit query).contains w).length : ℚ) * (1 / 2))
  | some .other => .error ()

/-- The method `_calculate_relevance`: the sum of the key-based score and
the four field contributions, evaluated in the order of the Python code; the
first raised contribution aborts the whole computation. -/
def calculateRelevance (query key : String) (data : EntryData) : Except Unit ℚ :=
  match cropContrib query data with
  | .error e => .error e
  | .ok c =>
    match categoryContrib query data with
    | .error e => .error e
    | .ok cat =>
      match symptomContrib query data with
      | .error e => .error e
      | .ok sy =>
        match solutionContrib query data with
        | .error e => .error e
        | .ok so => .ok (keyScore query key + c + cat + sy + so)

/-- The inner loop of `_search_knowledge_base` for one query variant: scan
the entries in order, skip keys already seen, score the rest, and record a
result (and the key as seen) on a positive score.  Returns the recorded
results of this variant in order together with the grown seen set; an
exception while scoring any entry aborts the whole search. -/
def scanEntries (q : String) : KnowledgeBase → List String → Except Unit (List SearchResult × List String)
  | [], seen => .ok ([], seen)
  | (key, data) :: rest, seen =>
    if seen.contains key then scanEntries q rest seen
    else
      match calculateRelevance q key data with
      | .error e => .error e
      | .ok score =>
        if 0 < score then
          match scanEntries q rest (key :: seen) with
          | .error e => .error e
          | .ok (delta, seen') => .ok (⟨key, data, score, q⟩ :: delta, seen')
        else scanEntries q rest seen

/-- The outer loop of `_search_knowledge_base` over the query variants,
threading the seen set and concatenating the recorded results. -/
def searchKBGo (kb : KnowledgeBase) : List String → List String → Except Unit (List SearchResult)
  | [], _ => .ok []
  | q :: qs, seen =>
    match scanEntries q kb seen with
    | .error e => .error e
    | .ok (delta, seen') =>
      match searchKBGo kb qs seen' with
      | .error e => .error e
      | .ok more => .ok (delta ++ more)

/-- The method `_search_knowledge_base`. -/
def searchKnowledgeBase (queries : List String) (knowledgeBase : KnowledgeBase) :
    Except Unit (List SearchResult) :=
  searchKBGo knowledgeBase queries []

/-! ## The Ranker (`_rank_results`) -/

/-- Python `sorted(results, key=lambda x: x["score"], reverse=True)`: the
stable descending sort by score, embedded as insertion sort (any stable sort
of the same preorder produces the same list). -/
def sortByScoreDesc (results : List SearchResult) : List SearchResult :=
  results.insertionSort fun x y => y.score ≤ x.score

/-- The boost of `_rank_results`: multiply the score by 1.2 when the entry
category equals the intent type prefix before the first underscore
(`intent["type"].split("_")[0]`); the comparison `==` against a missing or
non-string category is simply false. -/
def boostResult (intentType : String) (r : SearchResult) : SearchResult :=
  if r.data.category = some (.str (String.mk (intentType.data.takeWhile (· ≠ '_')))) then
    { r with score := r.score * (6 / 5) }
  else r

/-- The method `_rank_results`: sort descending, boost matching categories
when the intent type is not `general`, and re-sort descending. -/
def rankResults (results : List SearchResult) (_query : String) (intent : Intent) :
    List SearchResult :=
  let ranked := sortByScoreDesc results
  let ranked := if intent.type ≠ "general" then ranked.map (boostResult intent.type) else ranked
  sortByScoreDesc ranked

/-- The method `_apply_context`: reads the context and returns the results
unchanged (a pass-through extension point). -/
def applyContext (results : List SearchResult) (_context : Context) : List SearchResult :=
  results

/-! ## The Suggestion Generator (`_generate_suggestions`) -/

/-- Rendering of a field value inside an f-string: `str(v)` never raises;
the text produced for a non-string value is irrelevant to every claim. -/
def valText : Val → String
  | .str s => s
  | .other => "<value>"

/-- The suggestions contributed by one result: one string per crop among
the first two, plus a prevention suggestion when the prevention list is
present and non-empty (Python truthiness of a list). -/
def suggestionsOf (r : SearchResult) : List String :=
  (match r.data.crops with
   | some cs => (cs.take 2).map fun c => "How to manage " ++ r.key ++ " in " ++ valText c ++ "?"
   | none => []) ++
  (match r.data.prevention with
   | some p => if p.isEmpty then [] else ["How to prevent " ++ r.key ++ "?"]
   | none => [])

/-- The method `_generate_suggestions`: suggestions of the first five
results, deduplicated (`list(set(...))`, whose order Python leaves
unspecified; the embedding keeps first occurrences) and capped to five. -/
def generateSuggestions (_query : String) (results : List SearchResult) : List String :=
  (dedupKeepFirst ((results.take 5).map suggestionsOf).flatten).take 5

/-! ## The Session/History Tracker (`_update_search_history`) -/

/-- The append step of `_update_search_history`: append one entry, then keep
only the last 100 (`self.search_history[-100:]`). -/
def histAppend (h : List HistEntry) (e : HistEntry) : List HistEntry :=
  let h' := h ++ [e]
  if 100 < h'.length then h'.drop (h'.length - 100) else h'

/-- The method `_update_search_history` on the engine state. -/
def updateSearchHistory (st : EngineState) (query : String) (results : List SearchResult) :
    EngineState :=
  { st with searchHistory := histAppend st.searchHistory ⟨query, results.length⟩ }

/-! ## The `search` method

The Python method mutates the engine and returns a dict; an exception from
`_search_knowledge_base` propagates to the caller, leaving the statistics
counter already incremented and the history unchanged.  The embedding
returns the `Except`-wrapped output together with the post-call state. -/

def search (query : String) (knowledgeBase : KnowledgeBase) (context : Option Context)
    (st : EngineState) : Except Unit SearchOutput × EngineState :=
  let st := { st with totalSearches := st.totalSearches + 1 }
  let processed := preprocessQuery query
  let intent := extractIntent processed
  let expanded := expandQuery processed
  match searchKnowledgeBase expanded knowledgeBase with
  | .error e => (.error e, st)
  | .ok results =>
    let ranked := rankResults results processed intent
    let ranked := match context with
      | some c => applyContext ranked c
      | none => ranked
    let st := updateSearchHistory st query ranked
    (.ok { query := query
           processedQuery := processed
           intent := intent
           results := ranked.take 10
           totalResults := ranked.length
           suggestions := generateSuggestions query ranked }, st)

/-! ## Concrete fixtures used by the claim theorems -/

/-- A knowledge base holding one malformed entry (a non-string value in its
crop list) followed by one well-formed entry that matches the query. -/
def kbC1 : KnowledgeBase :=
  [("bad", { crops := some [Val.other] }),
   ("good", { crops := some [Val.str "wheat"] })]

/-- A non-empty knowledge base whose single key shares the character `a`
(and no substring) with the query `"xyzabc123"`. -/
def kbC2 : KnowledgeBase := [("aphids", {})]

/-- The knowledge base of the C3 example. -/
def kbC3 : KnowledgeBase :=
  [("aphids", { crops := some [.str "mustard", .str "wheat"],
                category := some (.str "pest"),
                symptoms := some [.str "curled leaves"] })]

instance : IsTotal SearchResult fun x y => y.score ≤ x.score :=
  ⟨fun a b => le_total b.score a.score⟩

instance : IsTrans SearchResult fun x y => y.score ≤ x.score :=
  ⟨fun _ _ _ h1 h2 => le_trans h2 h1⟩

/-- A pre-boost result of score 10 whose category is `"pest"`. -/
def pestResult : SearchResult :=
  ⟨"r1", { category := some (.str "pest") }, 10, "q"⟩

/-- A pre-boost result of score 10 whose category is `"disease"`. -/
def diseaseResult : SearchResult :=
  ⟨"r2", { category := some (.str "disease") }, 10, "q"⟩

/-! ## Helper lemmas about the string primitives -/

theorem lsw_head_mem {hay : List Char} {n : Char} {ns : List Char}
    (h : lsw hay (n :: ns) = true) : n ∈ hay := by
  cases hay with
  | nil => simp [lsw] at h
  | cons c t =>
    simp only [lsw, Bool.and_eq_true, beq_iff_eq] at h
    exact h.1 ▸ List.mem_cons_self c t

theorem containsSub_head_mem {needle hay : List Char} {n : Char} {ns : List Char}
    (hn : needle = n :: ns) (h : containsSub needle hay = true) : n ∈ hay := by
  induction hay with
  | nil => subst hn; simp [containsSub, lsw] at h
  | cons c t ih =>
    simp only [containsSub, Bool.or_eq_true] at h
    rcases h with h | h
    · exact lsw_head_mem (hn ▸ h)
    · exact List.mem_cons_of_mem c (ih h)

/-- A non-empty needle found inside a string shares its first character with
that string. -/
theorem pyIn_shared_char {w q : String} (hw : w.data ≠ [])
    (h : pyIn w q = true) : ∃ c, c ∈ w.data ∧ c ∈ q.data := by
  cases hd : w.data with
  | nil => exact absurd hd hw
  | cons n ns =>
    exact ⟨n, hd ▸ List.mem_cons_self n ns, containsSub_head_mem hd h⟩

theorem pyIn_false_of_disjoint {w q : String} (hw : w.data ≠ [])
    (hdis : ∀ c ∈ w.data, c ∉ q.data) : pyIn w q = false := by
  cases h : pyIn w q with
  | false => rfl
  | true =>
    obtain ⟨c, hcw, hcq⟩ := pyIn_shared_char hw h
    exact absurd hcq (hdis c hcw)

/-- Every word produced by `pySplitAux` is non-empty. -/
theorem pySplitAux_ne_nil : ∀ (l cur : List Char), ∀ w ∈ pySplitAux l cur, w ≠ [] := by
  intro l
  induction l with
  | nil =>
    intro cur w hw
    simp only [pySplitAux] at hw
    split at hw
    · simp at hw
    · rename_i hcur
      simp only [List.mem_singleton] at hw
      subst hw
      simpa [List.isEmpty_iff] using hcur
  | cons c rest ih =>
    intro cur w hw
    simp only [pySplitAux] at hw
    split at hw
    · split at hw
      · exact ih [] w hw
      · rename_i hcur
        rcases List.mem_cons.mp hw with h | h
        · subst h
          simpa [List.isEmpty_iff] using hcur
        · exact ih [] w h
    · exact ih (c :: cur) w hw

/-- Every character of a word produced by `pySplitAux` comes from the input
or the accumulator. -/
theorem pySplitAux_chars : ∀ (l cur : List Char), ∀ w ∈ pySplitAux l cur, ∀ c ∈ w, c ∈ l ∨ c ∈ cur := by
  intro l
  induction l with
  | nil =>
    intro cur w hw c hc
    simp only [pySplitAux] at hw
    split at hw
    · simp at hw
    · simp only [List.mem_singleton] at hw
      subst hw
      exact Or.inr (List.mem_reverse.mp hc)
  | cons a rest ih =>
    intro cur w hw c hc
    simp only [pySplitAux] at hw
    split at hw
    · split at hw
      · rcases ih [] w hw c hc with h | h
        · exact Or.inl (List.mem_cons_of_mem a h)
        · simp at h
      · rcases List.mem_cons.mp hw with h | h
        · subst h
          exact Or.inr (List.mem_reverse.mp hc)
        · rcases ih [] w h c hc with h2 | h2
          · exact Or.inl (List.mem_cons_of_mem a h2)
          · simp at h2
    · rcases ih (a :: cur) w hw c hc with h | h
      · exact Or.inl (List.mem_cons_of_mem a h)
      · rcases List.mem_cons.mp h with h2 | h2
        · exact Or.inl (h2 ▸ List.mem_cons_self a rest)
        · exact Or.inr h2

/-- Every word of `pySplit s` is a non-empty string. -/
theorem pySplit_word_ne_empty {s w : String} (hw : w ∈ pySplit s) : w.data ≠ [] := by
  simp only [pySplit, List.mem_map] at hw
  obtain ⟨wl, hwl, rfl⟩ := hw
  simpa using pySplitAux_ne_nil s.data [] wl hwl

/-- Every character of a word of `pySplit s` occurs in `s`. -/
theorem pySplit_word_chars {s w : String} (hw : w ∈ pySplit s) :
    ∀ c ∈ w.data, c ∈ s.data := by
  simp only [pySplit, List.mem_map] at hw
  obtain ⟨wl, hwl, rfl⟩ := hw
  intro c hc
  rcases pySplitAux_chars s.data [] wl hwl c hc with h | h
  · exact h
  · simp at h

/-- Splitting the empty string yields no words. -/
theorem pySplit_empty : pySplit "" = [] := by decide

/-! ## Helper lemmas about the SequenceMatcher ratio -/

theorem b2jRaw_eq_nil {b : List Char} {c : Char} (h : c ∉ b) : b2jRaw b c = [] := by
  simp only [b2jRaw, List.filter_eq_nil_iff]
  intro j _
  simp only [decide_eq_true_eq]
  intro hj
  exact h (List.get?_mem hj)

theorem b2j_eq_nil {b : List Char} {c : Char} (h : c ∉ b) : b2j b c = [] := by
  unfold b2j
  split <;> simp [b2jRaw_eq_nil h]

/-- When every scanned position indexes a character absent from `b`, the
dynamic program never updates the best triple. -/
theorem flmOuter_of_nil {a : List Char} {bj : Char → List Nat} {blo bhi : Nat} :
    ∀ (idxs : List Nat) (j2len : List (Nat × Nat)) (best : Nat × Nat × Nat),
    (∀ i ∈ idxs, bj (a.getD i ' ') = []) →
    flmOuter a bj blo bhi idxs j2len best = best := by
  intro idxs
  induction idxs with
  | nil => intro _ _ _; rfl
  | cons i is ih =>
    intro j2len best h
    have hi : bj (a.getD i ' ') = [] := h i (List.mem_cons_self i is)
    simp only [flmOuter, hi, flmInner]
    exact ih [] best fun x hx => h x (List.mem_cons_of_mem i hx)

theorem chEq_false_of_disjoint {a b : List Char} (hdis : ∀ c ∈ a, c ∉ b) (i j : Nat) :
    chEq a i b j = false := by
  unfold chEq
  cases ha : a.get? i with
  | none => rfl
  | some x =>
    cases hb : b.get? j with
    | none => rfl
    | some y =>
      have hxa : x ∈ a := List.get?_mem ha
      have hyb : y ∈ b := List.get?_mem hb
      simp only [beq_eq_false_iff_ne, ne_eq]
      intro hxy
      exact hdis x hxa (hxy ▸ hyb)

theorem extendLeft_zero {a b : List Char} {blo : Nat} (fuel bj bs : Nat) :
    extendLeft a b 0 blo fuel (0, bj, bs) = (0, bj, bs) := by
  cases fuel <;> simp [extendLeft]

theorem extendRight_fixed {a b : List Char} {ahi bhi : Nat} (fuel : Nat)
    (bi bj bs : Nat) (h : (decide (bi + bs < ahi) && decide (bj + bs < bhi) && chEq a (bi + bs) b (bj + bs)) = false) :
    extendRight a b ahi bhi fuel (bi, bj, bs) = (bi, bj, bs) := by
  cases fuel <;> simp only [extendRight, h, Bool.false_eq_true, if_false]

/-- Two character-disjoint strings have no matching block at all. -/
theorem findLongestMatch_of_disjoint {a b : List Char} (hdis : ∀ c ∈ a, c ∉ b) :
    findLongestMatch a b 0 a.length 0 b.length = (0, 0, 0) := by
  unfold findLongestMatch
  have houter : flmOuter a (b2j b) 0 b.length (List.range' 0 (a.length - 0)) [] (0, 0, 0) =
      (0, 0, 0) := by
    apply flmOuter_of_nil
    intro i hi
    have hilt : i < a.length := by
      have := List.mem_range'_1.mp hi
      omega
    have : a.getD i ' ' ∈ a := by
      rw [List.getD_eq_getElem a ' ' hilt]
      exact List.getElem_mem hilt
    exact b2j_eq_nil (hdis _ this)
  rw [houter]
  show extendRight a b a.length b.length a.length (extendLeft a b 0 0 0 (0, 0, 0)) = (0, 0, 0)
  rw [extendLeft_zero]
  exact extendRight_fixed a.length 0 0 0 (by simp [chEq_false_of_disjoint hdis])

/-- The matching total of a window whose longest match is empty is zero. -/
theorem matchingTotal_of_flm_zero {a b : List Char} {alo ahi blo bhi : Nat} (fuel : Nat)
    (h : (findLongestMatch a b alo ahi blo bhi).2.2 = 0) :
    matchingTotal a b (fuel + 1) alo ahi blo bhi = 0 := by
  simp [matchingTotal, h]

/-- The ratio of two character-disjoint sequences, not both empty, is zero. -/
theorem smRatio_of_disjoint {a b : List Char} (hdis : ∀ c ∈ a, c ∉ b)
    (hne : a.length + b.length ≠ 0) : smRatio a b = 0 := by
  unfold smRatio
  rw [if_neg hne]
  rw [matchingTotal_of_flm_zero (a.length + b.length)
    (by rw [findLongestMatch_of_disjoint hdis])]
  simp

/-! ## Helper lemmas about zero-scoring entries -/

theorem mem_dedupKeepFirst {l : List String} {x : String} (h : x ∈ dedupKeepFirst l) : x ∈ l := by
  induction l with
  | nil => simp [dedupKeepFirst] at h
  | cons a t ih =>
    simp only [dedupKeepFirst, List.mem_cons] at h ⊢
    rcases h with h | h
    · exact Or.inl h
    · exact Or.inr (ih (List.mem_of_mem_filter h))

theorem cropsScore_zero {q : String} {cs : List Val}
    (h : ∀ v ∈ cs, ∃ c, v = Val.str c ∧ pyIn c q = false) : cropsScore q cs = .ok 0 := by
  induction cs with
  | nil => rfl
  | cons v rest ih =>
    obtain ⟨c, rfl, hc⟩ := h v (List.mem_cons_self v rest)
    have := ih fun v hv => h v (List.mem_cons_of_mem _ hv)
    simp [cropsScore, this, hc, Except.map]

theorem symptomsScore_zero {q : String} {ss : List Val}
    (h : ∀ v ∈ ss, ∃ c, v = Val.str c ∧ pyIn c q = false) : symptomsScore q ss = .ok 0 := by
  induction ss with
  | nil => rfl
  | cons v rest ih =>
    obtain ⟨c, rfl, hc⟩ := h v (List.mem_cons_self v rest)
    have := ih fun v hv => h v (List.mem_cons_of_mem _ hv)
    simp [symptomsScore, this, hc, Except.map]

/-- An entry none of whose individual conditions fires scores exactly zero. -/
theorem calculateRelevance_zero {q key : String} {data : EntryData}
    (hkey : pyIn key q = false)
    (hwords : ∀ w ∈ pySplit key, pyIn w q = false)
    (hratio : smRatio q.data key.data = 0)
    (hcrops : ∀ cs, data.crops = some cs → ∀ v ∈ cs, ∃ c, v = Val.str c ∧ pyIn c q = false)
    (hcat : ∀ v, data.category = some v → ∃ c, v = Val.str c ∧ pyIn c q = false)
    (hsym : ∀ ss, data.symptoms = some ss → ∀ v ∈ ss, ∃ c, v = Val.str c ∧ pyIn c q = false)
    (hsol : ∀ v, data.solution = some v →
      ∃ c, v = Val.str c ∧ ∀ w ∈ pySplit (pyLower c), w ∉ pySplit q) :
    calculateRelevance q key data = .ok 0 := by
  have hks : keyScore q key = 0 := by
    unfold keyScore
    rw [hkey, hratio]
    have : (pySplit key).any (fun w => pyIn w q) = false := by
      simp only [List.any_eq_false]
      intro w hw
      simp [hwords w hw]
    rw [this]
    norm_num
  have hc : cropContrib q data = .ok 0 := by
    unfold cropContrib
    cases hcs : data.crops with
    | none => rfl
    | some cs => exact cropsScore_zero (hcrops cs hcs)
  have hcat2 : categoryContrib q data = .ok 0 := by
    unfold categoryContrib
    cases hv : data.category with
    | none => rfl
    | some v =>
      obtain ⟨c, rfl, hcq⟩ := hcat v hv
      simp [hcq]
  have hsy : symptomContrib q data = .ok 0 := by
    unfold symptomContrib
    cases hss : data.symptoms with
    | none => rfl
    | some ss => exact symptomsScore_zero (hsym ss hss)
  have hso : solutionContrib q data = .ok 0 := by
    unfold solutionContrib
    cases hv : data.solution with
    | none => rfl
    | some v =>
      obtain ⟨c, rfl, hcq⟩ := hsol v hv
      simp only [Except.ok.injEq, mul_eq_zero]
      left
      rw [Nat.cast_eq_zero, List.length_eq_zero, List.filter_eq_nil_iff]
      intro w hw
      have hnot : w ∉ pySplit q := hcq w (mem_dedupKeepFirst hw)
      simpa using hnot
  unfold calculateRelevance
  rw [hc, hcat2, hsy, hso, hks]
  norm_num

/-! ## Helper lemmas about the matcher and the search pipeline -/

theorem scanEntries_all_zero {q : String} {kb : KnowledgeBase}
    (h : ∀ p ∈ kb, calculateRelevance q p.1 p.2 = .ok 0) :
    ∀ seen, scanEntries q kb seen = .ok ([], seen) := by
  induction kb with
  | nil => intro seen; rfl
  | cons p rest ih =>
    intro seen
    obtain ⟨key, data⟩ := p
    have hz : calculateRelevance q key data = .ok 0 :=
      h (key, data) (List.mem_cons_self _ rest)
    have ihz := ih fun p hp => h p (List.mem_cons_of_mem _ hp)
    unfold scanEntries
    split
    · exact ihz seen
    · rw [hz]
      simp only [lt_self_iff_false, if_false]
      exact ihz seen

theorem searchKB_all_zero {kb : KnowledgeBase} {queries : List String}
    (h : ∀ v ∈ queries, ∀ p ∈ kb, calculateRelevance v p.1 p.2 = .ok 0) :
    searchKnowledgeBase queries kb = .ok [] := by
  unfold searchKnowledgeBase
  suffices hgo : ∀ seen, searchKBGo kb queries seen = .ok [] from hgo []
  induction queries with
  | nil => intro seen; rfl
  | cons v rest ih =>
    intro seen
    have hv := h v (List.mem_cons_self v rest)
    have ihz := ih fun v hv p hp => h v (List.mem_cons_of_mem _ hv) p hp
    unfold searchKBGo
    simp only [scanEntries_all_zero hv seen, ihz seen, List.nil_append]

/-- When the matcher records nothing, `search` returns an empty outcome:
no results, zero total, no suggestions. -/
theorem search_empty_of_no_matches {q : String} {kb : KnowledgeBase} {st : EngineState}
    (h : searchKnowledgeBase (expandQuery (preprocessQuery q)) kb = .ok []) :
    (search q kb none st).1 =
      .ok { query := q
            processedQuery := preprocessQuery q
            intent := extractIntent (preprocessQuery q)
            results := []
            totalResults := 0
            suggestions := [] } := by
  simp only [search]
  rw [h]
  simp [rankResults, sortByScoreDesc, generateSuggestions, dedupKeepFirst, List.insertionSort]

/-! ## Helper lemmas about the Text Normalizer -/

theorem toLower_of_isPySpace {c : Char} (h : isPySpace c = true) : Char.toLower c = c := by
  simp only [isPySpace, Bool.or_eq_true, decide_eq_true_eq] at h
  rcases h with ⟨⟨⟨⟨h | h⟩ | h⟩ | h⟩ | h⟩ | h <;> subst h <;> decide

/-- A whitespace-only query is normalised to the empty string. -/
theorem preprocessQuery_of_all_space {q : String} (h : ∀ c ∈ q.data, isPySpace c = true) :
    preprocessQuery q = "" := by
  have hlower : ∀ c ∈ (pyLower q).data, isPySpace c = true := by
    intro c hc
    simp only [pyLower, List.mem_map] at hc
    obtain ⟨x, hx, rfl⟩ := hc
    rw [toLower_of_isPySpace (h x hx)]
    exact h x hx
  have hstrip : (pyStrip (pyLower q)).data = [] := by
    simp only [pyStrip]
    have : (pyLower q).data.dropWhile isPySpace = [] :=
      List.dropWhile_eq_nil_iff.mpr hlower
    simp [this]
  simp only [preprocessQuery, hstrip]
  rfl

theorem mem_collapseWs {l : List Char} {b : Bool} {c : Char}
    (h : c ∈ collapseWs l b) : c = ' ' ∨ c ∈ l := by
  induction l generalizing b with
  | nil => simp [collapseWs] at h
  | cons a rest ih =>
    simp only [collapseWs] at h
    split at h
    · split at h
      · rcases ih h with h2 | h2
        · exact Or.inl h2
        · exact Or.inr (List.mem_cons_of_mem a h2)
      · rcases List.mem_cons.mp h with h2 | h2
        · exact Or.inl h2
        · rcases ih h2 with h3 | h3
          · exact Or.inl h3
          · exact Or.inr (List.mem_cons_of_mem a h3)
    · rcases List.mem_cons.mp h with h2 | h2
      · exact Or.inr (h2 ▸ List.mem_cons_self a rest)
      · rcases ih h2 with h3 | h3
        · exact Or.inl h3
        · exact Or.inr (List.mem_cons_of_mem a h3)

theorem mem_pyStrip {s : String} {c : Char} (h : c ∈ (pyStrip s).data) : c ∈ s.data := by
  simp only [pyStrip, List.mem_reverse] at h
  have h1 := List.dropWhile_subset isPySpace h
  rw [List.mem_reverse] at h1
  exact List.dropWhile_subset isPySpace h1

/-- The ASCII lowercase mapping never produces an ASCII uppercase letter. -/
theorem toLower_not_ascii_upper (c : Char) :
    ¬(65 ≤ (Char.toLower c).toNat ∧ (Char.toLower c).toNat ≤ 90) := by
  by_cases h : c.toNat ≥ 65 ∧ c.toNat ≤ 90
  · have h2 : Char.toLower c = Char.ofNat (c.toNat + 32) := by
      unfold Char.toLower
      exact if_pos h
    have hvalid : (c.toNat + 32).isValidChar := by
      left
      omega
    rw [h2, Char.ofNat, dif_pos hvalid]
    have h3 : (Char.ofNatAux (c.toNat + 32) hvalid).toNat = c.toNat + 32 := rfl
    rw [h3]
    omega
  · have h2 : Char.toLower c = c := by
      unfold Char.toLower
      exact if_neg h
    rw [h2]
    omega

/-! ## Helper lemmas about the history log -/

theorem histAppend_eq {h : List HistEntry} (e : HistEntry) (hle : h.length ≤ 100) :
    histAppend h e = (h ++ [e]).drop (h.length + 1 - 100) := by
  unfold histAppend
  simp only [List.length_append, List.length_singleton]
  split
  · rfl
  · rename_i hgt
    have : h.length + 1 - 100 = 0 := by omega
    rw [this, List.drop_zero]

theorem histAppend_length_le {h : List HistEntry} (e : HistEntry) (hle : h.length ≤ 100) :
    (histAppend h e).length ≤ 100 := by
  rw [histAppend_eq e hle]
  simp only [List.length_drop, List.length_append, List.length_singleton]
  omega

/-- Folding the bounded append always keeps the suffix of the last 100
entries of everything ever appended. -/
theorem foldl_histAppend_eq :
    ∀ (es : List HistEntry) (h : List HistEntry), h.length ≤ 100 →
    List.foldl histAppend h es = (h ++ es).drop ((h ++ es).length - 100) := by
  intro es
  induction es with
  | nil =>
    intro h hle
    simp only [List.foldl_nil, List.append_nil]
    have : h.length - 100 = 0 := by omega
    rw [this, List.drop_zero]
  | cons e rest ih =>
    intro h hle
    rw [List.foldl_cons, ih (histAppend h e) (histAppend_length_le e hle)]
    rw [histAppend_eq e hle]
    have hdle : h.length + 1 - 100 ≤ (h ++ [e]).length := by
      simp only [List.length_append, List.length_singleton]
      omega
    rw [← List.drop_append_of_le_length hdle, List.drop_drop]
    have hl : (h ++ [e]) ++ rest = h ++ e :: rest := by
      simp
    rw [hl]
    have hidx : h.length + 1 - 100 +
        ((List.drop (h.length + 1 - 100) (h ++ e :: rest)).length - 100) =
        (h ++ e :: rest).length - 100 := by
      simp only [List.length_drop, List.length_append, List.length_cons]
      omega
    rw [hidx]

/-! ## Helper lemmas for the dedup invariant of the matcher (claim C5) -/

/-- The scan returns the seen set extended exactly by the recorded keys. -/
theorem scanEntries_seen {q : String} :
    ∀ (kb : KnowledgeBase) (seen : List String) {delta : List SearchResult} {seen' : List String},
    scanEntries q kb seen = .ok (delta, seen') →
    seen' = (delta.map SearchResult.key).reverse ++ seen := by
  intro kb
  induction kb with
  | nil =>
    intro seen delta seen' h
    simp only [scanEntries, Except.ok.injEq, Prod.mk.injEq] at h
    obtain ⟨h1, h2⟩ := h
    subst h1
    subst h2
    simp
  | cons p rest ih =>
    intro seen delta seen' h
    obtain ⟨key, data⟩ := p
    unfold scanEntries at h
    split at h
    · exact ih seen h
    · split at h
      · exact absurd h (by simp)
      · split at h
        · split at h
          · exact absurd h (by simp)
          · rename_i delta0 seen0 hrec
            simp only [Except.ok.injEq, Prod.mk.injEq] at h
            obtain ⟨h1, h2⟩ := h
            subst h1
            subst h2
            have := ih (key :: seen) hrec
            simp only [this, List.map_cons, List.reverse_cons, List.append_assoc,
              List.singleton_append]
        · exact ih seen h

/-- Facts about every result recorded by one scan: its key was unseen, the
pair comes from the knowledge base, the matched variant is the scanned one,
and the stored score is its positive relevance score. -/
theorem scanEntries_mem {q : String} :
    ∀ (kb : KnowledgeBase) (seen : List String) {delta : List SearchResult} {seen' : List String},
    scanEntries q kb seen = .ok (delta, seen') →
    ∀ r ∈ delta, r.key ∉ seen ∧ (r.key, r.data) ∈ kb ∧ r.matchedQuery = q ∧
      calculateRelevance q r.key r.data = .ok r.score ∧ 0 < r.score := by
  intro kb
  induction kb with
  | nil =>
    intro seen delta seen' h r hr
    simp only [scanEntries, Except.ok.injEq, Prod.mk.injEq] at h
    obtain ⟨h1, _⟩ := h
    subst h1
    simp at hr
  | cons p rest ih =>
    intro seen delta seen' h r hr
    obtain ⟨key, data⟩ := p
    unfold scanEntries at h
    split at h
    · obtain ⟨h1, h2, h3, h4, h5⟩ := ih seen h r hr
      exact ⟨h1, Or.inr h2 |> List.mem_cons.mpr, h3, h4, h5⟩
    · rename_i hunseen
      split at h
      · exact absurd h (by simp)
      · rename_i score hscore
        split at h
        · rename_i hpos
          split at h
          · exact absurd h (by simp)
          · rename_i delta0 seen0 hrec
            simp only [Except.ok.injEq, Prod.mk.injEq] at h
            obtain ⟨h1, h2⟩ := h
            subst h1
            subst h2
            rcases List.mem_cons.mp hr with hhead | htail
            · subst hhead
              refine ⟨?_, List.mem_cons_self _ _, rfl, hscore, hpos⟩
              simpa [List.contains, Bool.not_eq_true] using hunseen
            · obtain ⟨h1, h2, h3, h4, h5⟩ := ih (key :: seen) hrec r htail
              exact ⟨fun hmem => h1 (List.mem_cons_of_mem key hmem),
                List.mem_cons.mpr (Or.inr h2), h3, h4, h5⟩
        · obtain ⟨h1, h2, h3, h4, h5⟩ := ih seen h r hr
          exact ⟨h1, List.mem_cons.mpr (Or.inr h2), h3, h4, h5⟩

/-- The keys recorded by one scan are pairwise distinct. -/
theorem scanEntries_nodup {q : String} :
    ∀ (kb : KnowledgeBase) (seen : List String) {delta : List SearchResult} {seen' : List String},
    scanEntries q kb seen = .ok (delta, seen') →
    (delta.map SearchResult.key).Nodup := by
  intro kb
  induction kb with
  | nil =>
    intro seen delta seen' h
    simp only [scanEntries, Except.ok.injEq, Prod.mk.injEq] at h
    obtain ⟨h1, _⟩ := h
    subst h1
    simp
  | cons p rest ih =>
    intro seen delta seen' h
    obtain ⟨key, data⟩ := p
    unfold scanEntries at h
    split at h
    · exact ih seen h
    · split at h
      · exact absurd h (by simp)
      · split at h
        · split at h
          · exact absurd h (by simp)
          · rename_i delta0 seen0 hrec
            simp only [Except.ok.injEq, Prod.mk.injEq] at h
            obtain ⟨h1, _⟩ := h
            subst h1
            simp only [List.map_cons, List.nodup_cons]
            refine ⟨?_, ih (key :: seen) hrec⟩
            intro hmem
            obtain ⟨r, hrmem, hrkey⟩ := List.mem_map.mp hmem
            have := (scanEntries_mem rest (key :: seen) hrec r hrmem).1
            exact this (hrkey ▸ List.mem_cons_self key seen)
        · exact ih seen h

/-- An unseen entry of the knowledge base that the scan did not record
scored non-positively (and in particular did not raise). -/
theorem scanEntries_not_recorded {q : String} :
    ∀ (kb : KnowledgeBase) (seen : List String) {delta : List SearchResult} {seen' : List String},
    scanEntries q kb seen = .ok (delta, seen') →
    ∀ k d, (k, d) ∈ kb → k ∉ seen → k ∉ delta.map SearchResult.key →
    ∃ s, calculateRelevance q k d = .ok s ∧ ¬ 0 < s := by
  intro kb
  induction kb with
  | nil =>
    intro seen delta seen' h k d hkd
    simp at hkd
  | cons p rest ih =>
    intro seen delta seen' h k d hkd hseen hdelta
    obtain ⟨key, data⟩ := p
    unfold scanEntries at h
    split at h
    · rename_i hcont
      rcases List.mem_cons.mp hkd with hhead | htail
      · have hk : k = key := congrArg Prod.fst hhead
        subst hk
        have hmem : k ∈ seen := by simpa [List.contains] using hcont
        exact absurd hmem hseen
      · exact ih seen h k d htail hseen hdelta
    · split at h
      · exact absurd h (by simp)
      · rename_i score hscore
        split at h
        · split at h
          · exact absurd h (by simp)
          · rename_i delta0 seen0 hrec
            simp only [Except.ok.injEq, Prod.mk.injEq] at h
            obtain ⟨h1, _⟩ := h
            subst h1
            simp only [List.map_cons, List.mem_cons, not_or] at hdelta
            obtain ⟨hkne, hdelta0⟩ := hdelta
            rcases List.mem_cons.mp hkd with hhead | htail
            · exact absurd (congrArg Prod.fst hhead) hkne
            · exact ih (key :: seen) hrec k d htail
                (fun hm => (List.mem_cons.mp hm).elim hkne hseen) hdelta0
        · rename_i hnpos
          rcases List.mem_cons.mp hkd with hhead | htail
          · have hk : k = key := congrArg Prod.fst hhead
            have hd : d = data := congrArg Prod.snd hhead
            subst hk
            subst hd
            exact ⟨score, hscore, hnpos⟩
          · exact ih seen h k d htail hseen hdelta

/-- Facts about every result of the variant loop: the key was unseen, the
pair comes from the knowledge base, the stored score is its positive
relevance score against the matched variant, and every variant before the
matched one scored the entry non-positively. -/
theorem searchKBGo_mem {kb : KnowledgeBase} :
    ∀ (queries : List String) (seen : List String) {rs : List SearchResult},
    searchKBGo kb queries seen = .ok rs →
    ∀ r ∈ rs, r.key ∉ seen ∧ (r.key, r.data) ∈ kb ∧
      calculateRelevance r.matchedQuery r.key r.data = .ok r.score ∧ 0 < r.score ∧
      ∃ m, queries.get? m = some r.matchedQuery ∧
        ∀ i, i < m →
          ∃ s, calculateRelevance (queries.getD i "") r.key r.data = .ok s ∧ ¬ 0 < s := by
  intro queries
  induction queries with
  | nil =>
    intro seen rs h r hr
    simp only [searchKBGo, Except.ok.injEq] at h
    subst h
    simp at hr
  | cons q qs ih =>
    intro seen rs h r hr
    unfold searchKBGo at h
    split at h
    · exact absurd h (by simp)
    · rename_i delta seen' hscan
      split at h
      · exact absurd h (by simp)
      · rename_i more hmore
        simp only [Except.ok.injEq] at h
        subst h
        rcases List.mem_append.mp hr with hdelta | hmorecase
        · obtain ⟨h1, h2, h3, h4, h5⟩ := scanEntries_mem kb seen hscan r hdelta
          refine ⟨h1, h2, h3 ▸ h4, h5, 0, ?_, ?_⟩
          · simpa using h3.symm
          · intro i hi
            omega
        · obtain ⟨h1, h2, h3, h4, m, hm, hearlier⟩ := ih seen' hmore r hmorecase
          have hseen' := scanEntries_seen kb seen hscan
          have hnotseen : r.key ∉ seen := fun hmem =>
            h1 (hseen' ▸ List.mem_append.mpr (Or.inr hmem))
          have hnotdelta : r.key ∉ delta.map SearchResult.key := fun hmem =>
            h1 (hseen' ▸ List.mem_append.mpr (Or.inl (List.mem_reverse.mpr hmem)))
          refine ⟨hnotseen, h2, h3, h4, m + 1, by simpa using hm, ?_⟩
          intro i hi
          cases i with
          | zero =>
            simp only [List.getD_cons_zero]
            exact scanEntries_not_recorded kb seen hscan r.key r.data h2 hnotseen hnotdelta
          | succ i0 =>
            simp only [List.getD_cons_succ]
            exact hearlier i0 (by omega)

/-- The keys of the full raw match set are pairwise distinct. -/
theorem searchKBGo_nodup {kb : KnowledgeBase} :
    ∀ (queries : List String) (seen : List String) {rs : List SearchResult},
    searchKBGo kb queries seen = .ok rs →
    (rs.map SearchResult.key).Nodup := by
  intro queries
  induction queries with
  | nil =>
    intro seen rs h
    simp only [searchKBGo, Except.ok.injEq] at h
    subst h
    simp
  | cons q qs ih =>
    intro seen rs h
    unfold searchKBGo at h
    split at h
    · exact absurd h (by simp)
    · rename_i delta seen' hscan
      split at h
      · exact absurd h (by simp)
      · rename_i more hmore
        simp only [Except.ok.injEq] at h
        subst h
        rw [List.map_append]
        refine List.Nodup.append (scanEntries_nodup kb seen hscan) (ih seen' hmore) ?_
        intro x hxdelta hxmore
        obtain ⟨r, hrmem, hrkey⟩ := List.mem_map.mp hxmore
        have h1 := (searchKBGo_mem qs seen' hmore r hrmem).1
        have hseen' := scanEntries_seen kb seen hscan
        exact h1 (hseen' ▸ List.mem_append.mpr (Or.inl (List.mem_reverse.mpr (hrkey ▸ hxdelta))))

/-! ## Claims

Each claim of the specification is settled by one theorem below (plus a
counterexample theorem where the claim as stated fails on the code, and a
closed witness where the theorem carries hypotheses). -/

/-- C1 (code_bug): the specification demands that an exception raised while
scoring a single malformed entry (here the `TypeError` from evaluating
`1 in query` on the non-string crop of `"bad"`) be isolated so the scan
continues and the remaining well-formed entries still produce results.  The
code has no handler: the exception propagates out of
`_calculate_relevance` through `_search_knowledge_base` and aborts the whole
`search` call.  The first conjunct evaluates the embedded code at the
failing input and shows the raised exception; the second shows the same
well-formed entry alone would have produced one result, so the malformed
entry denies results for the well-formed one. -/
theorem c1_malformed_entry_aborts_search :
    (search "wheat" kbC1 none {}).1 = .error () ∧
    (search "wheat" [("good", { crops := some [Val.str "wheat"] })] none {}).1.map
      (fun o => o.totalResults) = .ok 1 :=
  ⟨by decide, by decide⟩

/-- C2 (counterexample): the claim quantifies over all non-empty knowledge
mappings, but for the mapping `{"aphids": {}}` the sequence-similarity term
of `"xyzabc123"` against `"aphids"` is `2/15 > 0`, so the entry scores
`3 * 2/15 = 0.4 > 0` and `total_results` is `1`, not `0`. -/
theorem c2_counterexample :
    kbC2 ≠ [] ∧
    (search "xyzabc123" kbC2 none {}).1.map (fun o => o.totalResults) = .ok 1 ∧
    (search "xyzabc123" kbC2 none {}).1.map (fun o => o.totalResults) ≠ .ok 0 :=
  ⟨by decide, by decide, by decide⟩

/-- C2 (amended): the query `"xyzabc123"` returns `total_results = 0`, an
empty result list and an empty suggestion list for every non-empty knowledge
mapping whose entry keys and string fields are non-empty, well-formed and
share no character with the query (so every scoring contribution, including
the sequence-similarity ratio, is exactly zero). -/
theorem c2_no_results_when_char_disjoint (kb : KnowledgeBase) (st : EngineState)
    (_hne : kb ≠ [])
    (hkb : ∀ p ∈ kb, p.1.data ≠ [] ∧ (∀ c ∈ p.1.data, c ∉ "xyzabc123".data) ∧
      (∀ cs, p.2.crops = some cs → ∀ v ∈ cs, ∃ w, v = Val.str w ∧ w.data ≠ [] ∧
        ∀ c ∈ w.data, c ∉ "xyzabc123".data) ∧
      (∀ v, p.2.category = some v → ∃ w, v = Val.str w ∧ w.data ≠ [] ∧
        ∀ c ∈ w.data, c ∉ "xyzabc123".data) ∧
      (∀ ss, p.2.symptoms = some ss → ∀ v ∈ ss, ∃ w, v = Val.str w ∧ w.data ≠ [] ∧
        ∀ c ∈ w.data, c ∉ "xyzabc123".data) ∧
      (∀ v, p.2.solution = some v → ∃ w, v = Val.str w ∧
        ∀ c ∈ (pyLower w).data, c ∉ "xyzabc123".data)) :
    (search "xyzabc123" kb none st).1.map
      (fun o => (o.totalResults, o.results, o.suggestions)) = .ok (0, [], []) := by
  have hproc : preprocessQuery "xyzabc123" = "xyzabc123" := by decide
  have hexp : expandQuery "xyzabc123" = ["xyzabc123"] := by decide
  have hkbz : searchKnowledgeBase (expandQuery (preprocessQuery "xyzabc123")) kb = .ok [] := by
    rw [hproc, hexp]
    apply searchKB_all_zero
    intro v hv p hp
    have hv2 : v = "xyzabc123" := by simpa using hv
    subst hv2
    obtain ⟨hkey, hkeydis, hcrops, hcat, hsym, hsol⟩ := hkb p hp
    apply calculateRelevance_zero
    · exact pyIn_false_of_disjoint hkey hkeydis
    · intro w hw
      apply pyIn_false_of_disjoint (pySplit_word_ne_empty hw)
      intro c hc
      exact hkeydis c (pySplit_word_chars hw c hc)
    · apply smRatio_of_disjoint
      · intro c hcq hckey
        exact hkeydis c hckey hcq
      · simp
    · intro cs hcs v hvcs
      obtain ⟨w, rfl, hwne, hwdis⟩ := hcrops cs hcs v hvcs
      exact ⟨w, rfl, pyIn_false_of_disjoint hwne hwdis⟩
    · intro v hvcat
      obtain ⟨w, rfl, hwne, hwdis⟩ := hcat v hvcat
      exact ⟨w, rfl, pyIn_false_of_disjoint hwne hwdis⟩
    · intro ss hss v hvss
      obtain ⟨w, rfl, hwne, hwdis⟩ := hsym ss hss v hvss
      exact ⟨w, rfl, pyIn_false_of_disjoint hwne hwdis⟩
    · intro v hvsol
      obtain ⟨w, rfl, hwdis⟩ := hsol v hvsol
      refine ⟨w, rfl, ?_⟩
      intro u hu humem
      have hq : pySplit "xyzabc123" = ["xyzabc123"] := by decide
      rw [hq] at humem
      have hueq : u = "xyzabc123" := by simpa using humem
      have hx : 'x' ∈ u.data := by
        rw [hueq]
        decide
      exact hwdis 'x' (pySplit_word_chars hu 'x' hx) (by decide)
  rw [search_empty_of_no_matches hkbz]
  rfl

/-- C2 (witness). -/
theorem c2_witness :
    (search "xyzabc123" [("pest", { category := some (.str "pest") })] none {}).1.map
      (fun o => (o.totalResults, o.results, o.suggestions)) = .ok (0, [], []) := by
  apply c2_no_results_when_char_disjoint
  · decide
  · intro p hp
    have hp2 : p = ("pest", { category := some (.str "pest") }) := by simpa using hp
    subst hp2
    refine ⟨by decide, by decide, by simp, ?_, by simp, by simp⟩
    intro v hv
    exact ⟨"pest", (by simpa using hv : Val.str "pest" = v).symm, by decide, by decide⟩

/-- C3 (counterexample): the claim asserts the detected intent topic is
`"pest_control"`, conditional on the word-boundary regex `\baphid\b`
matching the plural `"aphids"`.  It does not: in `"aphids"` the characters
`d` and `s` are both word characters, so there is no boundary after
`"aphid"`, no pattern of any group matches, and the intent returned by
`search` is `"general"`. -/
theorem c3_counterexample :
    (search "How to control aphids in mustard?" kbC3 none {}).1.map
      (fun o => o.intent.type) ≠ .ok "pest_control" := by
  decide

/-- C3 (amended): for the query `"How to control aphids in mustard?"`
against the example mapping, `search` returns `"aphids"` as the top result
with score `259/13 = 10 + 5 + 3 * (4/13) + 4 > 14` (key substring, key
word, similarity ratio, and the crop `"mustard"`), but the detected intent
topic is `"general"`, not `"pest_control"`, because `\baphid\b` fails on
the plural `"aphids"`. -/
theorem c3_aphids_example :
    (search "How to control aphids in mustard?" kbC3 none {}).1.map
      (fun o => (o.results.head?.map fun r => (r.key, r.score), o.intent.type)) =
      .ok (some ("aphids", 259 / 13), "general") ∧ (14 : ℚ) < 259 / 13 :=
  ⟨by decide, by decide⟩

/-- C4 (counterexample): the claim asserts the normalised output never has
trailing whitespace, even when removing a special character exposes it, and
names the input `"hello @"`.  The code strips before it removes special
characters, so `"hello @"` normalises to `"hello "`, which ends with a
space. -/
theorem c4_counterexample :
    preprocessQuery "hello @" = "hello " ∧
    (preprocessQuery "hello @").data.getLast? = some ' ' ∧
    isPySpace ' ' = true :=
  ⟨by decide, by decide, by decide⟩

/-- C4 (amended): for every input string the Text Normalizer output is
lowercase (it contains no ASCII uppercase letter) and contains no character
other than word characters, whitespace, hyphen and question mark, and the
empty input yields the empty output.  The whitespace-collapsing and
stripping steps run before special-character removal, so removal may expose
leading, trailing or doubled whitespace in the final output (the
counterexample above); those two output properties of the claim do not hold
of the code. -/
theorem c4_normalizer_output (s : String) :
    (∀ c ∈ (preprocessQuery s).data,
      keepChar c = true ∧ ¬(65 ≤ c.toNat ∧ c.toNat ≤ 90)) ∧
    preprocessQuery "" = "" := by
  constructor
  · intro c hc
    simp only [preprocessQuery] at hc
    have hkeep := List.of_mem_filter hc
    refine ⟨hkeep, ?_⟩
    have hc2 : c ∈ collapseWs (pyStrip (pyLower s)).data false := List.mem_of_mem_filter hc
    rcases mem_collapseWs hc2 with hsp | hc3
    · subst hsp
      decide
    · have hc4 : c ∈ (pyLower s).data := mem_pyStrip hc3
      simp only [pyLower, List.mem_map] at hc4
      obtain ⟨x, _, rfl⟩ := hc4
      exact toLower_not_ascii_upper x
  · decide

/-- C4 (witness). -/
theorem c4_witness :
    keepChar 'h' = true ∧ ¬(65 ≤ 'h'.toNat ∧ 'h'.toNat ≤ 90) :=
  (c4_normalizer_output "Hi!").1 'h' (by decide)

/-- C6: scoring is a pure function of the query and the knowledge base:
calling `search` a second time with the same query, the unchanged mapping
and no context, starting from the state the first call left behind (with
its history and statistics mutations), returns exactly the same outcome --
same entry keys, same scores, same order.  The engine state never feeds
into preprocessing, intent extraction, expansion, matching, ranking or
suggestions. -/
theorem c6_search_idempotent (q : String) (kb : KnowledgeBase) (st : EngineState) :
    (search q kb none ((search q kb none st).2)).1 = (search q kb none st).1 := by
  simp only [search]
  cases searchKnowledgeBase (expandQuery (preprocessQuery q)) kb <;> rfl

/-- C7: adding a crop that is a substring of the query variant to the crop
list of an entry raises its relevance score by exactly the `+4.0` crop
contribution, hence strictly: every other contribution reads only the query,
the key, and the unchanged fields. -/
theorem c7_crop_monotonic (q key c : String) (data : EntryData) (s : ℚ)
    (hc : pyIn c q = true)
    (hok : calculateRelevance q key data = .ok s) :
    calculateRelevance q key
      { data with crops := some (Val.str c :: data.crops.getD []) } = .ok (s + 4) ∧
    s < s + 4 := by
  have hcrops0 : cropsScore q (data.crops.getD []) = cropContrib q data := by
    unfold cropContrib
    cases data.crops <;> rfl
  unfold calculateRelevance at hok
  cases hcc : cropContrib q data with
  | error e => rw [hcc] at hok; exact absurd hok (by simp)
  | ok cval =>
  rw [hcc] at hok
  cases hcat : categoryContrib q data with
  | error e => rw [hcat] at hok; exact absurd hok (by simp)
  | ok catval =>
  rw [hcat] at hok
  cases hsy : symptomContrib q data with
  | error e => rw [hsy] at hok; exact absurd hok (by simp)
  | ok syval =>
  rw [hsy] at hok
  cases hso : solutionContrib q data with
  | error e => rw [hso] at hok; exact absurd hok (by simp)
  | ok soval =>
  rw [hso] at hok
  have hs : keyScore q key + cval + catval + syval + soval = s := by
    simpa using hok
  have hcontrib : cropContrib q
      { data with crops := some (Val.str c :: data.crops.getD []) } = .ok (4 + cval) := by
    show cropsScore q (Val.str c :: data.crops.getD []) = .ok (4 + cval)
    unfold cropsScore
    rw [hcrops0, hcc, hc]
    simp [Except.map]
  have hcat2 : categoryContrib q
      { data with crops := some (Val.str c :: data.crops.getD []) } =
      categoryContrib q data := rfl
  have hsy2 : symptomContrib q
      { data with crops := some (Val.str c :: data.crops.getD []) } =
      symptomContrib q data := rfl
  have hso2 : solutionContrib q
      { data with crops := some (Val.str c :: data.crops.getD []) } =
      solutionContrib q data := rfl
  constructor
  · unfold calculateRelevance
    rw [hcontrib, hcat2, hcat, hsy2, hsy, hso2, hso]
    simp only [Except.ok.injEq]
    linarith
  · linarith

/-- C7 (witness). -/
theorem c7_witness :
    pyIn "mustard" "aphids in mustard" = true ∧
    calculateRelevance "aphids in mustard" "aphids" {} = .ok (381 / 23) ∧
    calculateRelevance "aphids in mustard"
      "aphids" { crops := some [Val.str "mustard"] } = .ok (381 / 23 + 4) ∧
    (381 / 23 : ℚ) < 381 / 23 + 4 := by
  refine ⟨by decide, by decide, ?_, ?_⟩
  · exact (c7_crop_monotonic "aphids in mustard" "aphids" "mustard" {} (381 / 23)
      (by decide) (by decide)).1
  · exact (c7_crop_monotonic "aphids in mustard" "aphids" "mustard" {} (381 / 23)
      (by decide) (by decide)).2

/-- C8: when the detected intent topic is not `"general"`, the Ranker
multiplies by 1.2 the score of every result whose entry category equals the
topic prefix before the first underscore and re-sorts descending: the output
is a permutation of the boost applied to every input result and is sorted by
descending score.  In particular, with intent topic `"pest_control"` and two
entries both scoring 10.0 pre-boost, the `"pest"`-category entry ends with
effective score 12.0 and ranks above the `"disease"`-category entry, which
keeps 10.0. -/
theorem c8_intent_boost (results : List SearchResult) (q : String) (intent : Intent)
    (h : intent.type ≠ "general") :
    (rankResults results q intent).Perm (results.map (boostResult intent.type)) ∧
    List.Sorted (fun x y : SearchResult => y.score ≤ x.score) (rankResults results q intent) ∧
    rankResults [diseaseResult, pestResult] "q" ⟨"pest_control", none, none, 9 / 10⟩ =
      [{ pestResult with score := 12 }, diseaseResult] := by
  refine ⟨?_, ?_, ?_⟩
  · simp only [rankResults, sortByScoreDesc, if_pos h]
    exact (List.perm_insertionSort _ _).trans ((List.perm_insertionSort _ _).map _)
  · unfold rankResults sortByScoreDesc
    exact List.sorted_insertionSort _ _
  · decide

/-- C8 (witness). -/
theorem c8_witness :
    ("pest_control" : String) ≠ "general" ∧
    rankResults [diseaseResult, pestResult] "q" ⟨"pest_control", none, none, 9 / 10⟩ =
      [{ pestResult with score := 12 }, diseaseResult] :=
  ⟨by decide, (c8_intent_boost [] "q" ⟨"pest_control", none, none, 9 / 10⟩ (by decide)).2.2⟩

/-- C9: the history log produced by any sequence of appends never exceeds
100 entries, and after 150 appends it holds exactly the last 100 entries in
their original relative order (FIFO eviction of the oldest 50). -/
theorem c9_history_bounded :
    (∀ es : List HistEntry, (List.foldl histAppend [] es).length ≤ 100) ∧
    (∀ es : List HistEntry, es.length = 150 →
      List.foldl histAppend [] es = es.drop 50) := by
  constructor
  · intro es
    rw [foldl_histAppend_eq es [] (by simp)]
    simp only [List.nil_append, List.length_drop]
    omega
  · intro es h150
    rw [foldl_histAppend_eq es [] (by simp)]
    simp only [List.nil_append]
    rw [h150]

/-- C9 (witness). -/
theorem c9_witness :
    (List.replicate 150 (⟨"q", 0⟩ : HistEntry)).length = 150 ∧
    List.foldl histAppend [] (List.replicate 150 (⟨"q", 0⟩ : HistEntry)) =
      (List.replicate 150 (⟨"q", 0⟩ : HistEntry)).drop 50 :=
  ⟨by simp, c9_history_bounded.2 _ (by simp)⟩

/-- C10: for a well-formed knowledge mapping whose entry keys, crop names,
category labels and symptom strings are all non-empty strings (and whose
solution fields are strings), an empty or whitespace-only query normalises
to the empty string, every scoring contribution is zero, and `search`
returns zero total results, an empty result list and an empty suggestion
list. -/
theorem c10_empty_query (q : String) (kb : KnowledgeBase) (st : EngineState)
    (hq : ∀ c ∈ q.data, isPySpace c = true)
    (hkb : ∀ p ∈ kb, p.1.data ≠ [] ∧
      (∀ cs, p.2.crops = some cs → ∀ v ∈ cs, ∃ w, v = Val.str w ∧ w.data ≠ []) ∧
      (∀ v, p.2.category = some v → ∃ w, v = Val.str w ∧ w.data ≠ []) ∧
      (∀ ss, p.2.symptoms = some ss → ∀ v ∈ ss, ∃ w, v = Val.str w ∧ w.data ≠ []) ∧
      (∀ v, p.2.solution = some v → ∃ w, v = Val.str w)) :
    (search q kb none st).1.map
      (fun o => (o.totalResults, o.results, o.suggestions)) = .ok (0, [], []) := by
  have hproc : preprocessQuery q = "" := preprocessQuery_of_all_space hq
  have hexp : expandQuery "" = [""] := by decide
  have hkbz : searchKnowledgeBase (expandQuery (preprocessQuery q)) kb = .ok [] := by
    rw [hproc, hexp]
    apply searchKB_all_zero
    intro v hv p hp
    have hv2 : v = "" := by simpa using hv
    subst hv2
    obtain ⟨hkey, hcrops, hcat, hsym, hsol⟩ := hkb p hp
    have hdisj : ∀ (w : String), w.data ≠ [] → pyIn w "" = false := by
      intro w hw
      apply pyIn_false_of_disjoint hw
      intro c _
      simp [String.data]
    apply calculateRelevance_zero
    · exact hdisj p.1 hkey
    · intro w hw
      exact hdisj w (pySplit_word_ne_empty hw)
    · apply smRatio_of_disjoint
      · intro c hc
        simp [String.data] at hc
      · have hpos : 0 < p.1.data.length := List.length_pos.mpr hkey
        have h0 : ("" : String).data.length = 0 := rfl
        omega
    · intro cs hcs v hvcs
      obtain ⟨w, rfl, hwne⟩ := hcrops cs hcs v hvcs
      exact ⟨w, rfl, hdisj w hwne⟩
    · intro v hvcat
      obtain ⟨w, rfl, hwne⟩ := hcat v hvcat
      exact ⟨w, rfl, hdisj w hwne⟩
    · intro ss hss v hvss
      obtain ⟨w, rfl, hwne⟩ := hsym ss hss v hvss
      exact ⟨w, rfl, hdisj w hwne⟩
    · intro v hvsol
      obtain ⟨w, rfl⟩ := hsol v hvsol
      refine ⟨w, rfl, ?_⟩
      intro u _ humem
      rw [pySplit_empty] at humem
      simp at humem
  rw [search_empty_of_no_matches hkbz]
  rfl

/-- C10 (witness). -/
theorem c10_witness :
    (search "   " [("aphids", { crops := some [Val.str "mustard"],
                                category := some (.str "pest"),
                                symptoms := some [Val.str "curled leaves"] })]
      none {}).1.map
      (fun o => (o.totalResults, o.results, o.suggestions)) = .ok (0, [], []) := by
  apply c10_empty_query
  · decide
  · intro p hp
    have hp2 : p = ("aphids", { crops := some [Val.str "mustard"],
                                category := some (.str "pest"),
                                symptoms := some [Val.str "curled leaves"] }) := by
      simpa using hp
    subst hp2
    refine ⟨by decide, ?_, ?_, ?_, by simp⟩
    · intro cs hcs v hv
      have hcs2 : cs = [Val.str "mustard"] :=
        (by simpa using hcs : [Val.str "mustard"] = cs).symm
      subst hcs2
      exact ⟨"mustard", by simpa using hv, by decide⟩
    · intro v hv
      exact ⟨"pest", (by simpa using hv : Val.str "pest" = v).symm, by decide⟩
    · intro ss hss v hv
      have hss2 : ss = [Val.str "curled leaves"] :=
        (by simpa using hss : [Val.str "curled leaves"] = ss).symm
      subst hss2
      exact ⟨"curled leaves", by simpa using hv, by decide⟩

/-- C5: within one search call, each entry key appears at most once in the
raw match set produced by the Knowledge Matcher even when several variants
match it, and the result recorded for an entry carries the first variant (in
variant order) whose relevance score for that entry is positive, together
with the score computed against exactly that variant; all earlier variants
scored the entry non-positively. -/
theorem c5_dedup_first_variant (queries : List String) (kb : KnowledgeBase)
    (rs : List SearchResult)
    (hok : searchKnowledgeBase queries kb = .ok rs) :
    (rs.map SearchResult.key).Nodup ∧
    ∀ r ∈ rs, (r.key, r.data) ∈ kb ∧
      calculateRelevance r.matchedQuery r.key r.data = .ok r.score ∧ 0 < r.score ∧
      ∃ m, queries.get? m = some r.matchedQuery ∧
        ∀ i, i < m →
          ∃ s, calculateRelevance (queries.getD i "") r.key r.data = .ok s ∧ ¬ 0 < s := by
  unfold searchKnowledgeBase at hok
  refine ⟨searchKBGo_nodup queries [] hok, ?_⟩
  intro r hr
  obtain ⟨_, h2, h3, h4, m, hm, he⟩ := searchKBGo_mem queries [] hok r hr
  exact ⟨h2, h3, h4, m, hm, he⟩

/-- C5 (witness): the key `"good"` scores zero against the first variant
`"zz"` and `18` against the second variant `"good"`, which is the variant
recorded. -/
theorem c5_witness :
    searchKnowledgeBase ["zz", "good"] [("good", {})] =
      .ok [⟨"good", {}, 18, "good"⟩] ∧
    (([⟨"good", {}, 18, "good"⟩] : List SearchResult).map SearchResult.key).Nodup :=
  ⟨by decide,
   (c5_dedup_first_variant ["zz", "good"] [("good", {})] [⟨"good", {}, 18, "good"⟩]
     (by decide)).1⟩
